import Mathlib

/-!
Shallow embedding of the Go package `elo` (file `elo.go`).

Floating-point values (`float64`) are modelled as rational numbers `ℚ`,
with exact arithmetic.  The one transcendental operation the code uses,
`math.Pow(10, x)` (a Go standard-library function, not code of this
repository), is modelled as an abstract function parameter `p : ℚ → ℚ`;
every theorem that needs a property of it (strict positivity of `10^x`)
takes that property as a hypothesis, and concrete instances use
`pow10int`, which agrees with the mathematical `10^x` at every integer
argument.
-/

namespace elo

/-- The error message returned by `Calculate` for misshapen slices
(`elo.go` line 291). -/
def lengthErrMsg : String := "ratings, kValues, and normalizedScores should be the same length"

/-- An instance of an Elo rating system (`elo.go`: `type Elo struct { Base float64 }`). -/
structure Elo where
  Base : ℚ

/-- A player, modelled by the two accessors of the Go `Player` interface:
`Rating() float64` and `KFactor() float64`. -/
structure Player where
  rating : ℚ
  kFactor : ℚ

/-- The comparator built by `cmp(s)` (`elo.go` lines 447-459), recast as the
boolean "not after" relation used by a stable ascending sort: Go's
`slices.SortStableFunc(idx, cmp(s))` keeps `a` before `b` exactly when
`cmp(a,b) <= 0`, i.e. when `s[a] <= s[b]`. -/
def cmp (s : List ℚ) (a b : ℕ) : Bool := decide (s.getD a 0 ≤ s.getD b 0)

/-- The all-(adjacent-)equal test of `normalize` (`elo.go` lines 419-425):
`isEqual` stays `true` iff no adjacent pair differs by more than `1e-9`. -/
def isEqualCheck (s : List ℚ) : Bool :=
  (List.range (s.length - 1)).all (fun i => decide (|s.getD i 0 - s.getD (i+1) 0| ≤ 1 / 10^9))

/-- `slices.Min` (empty case unreachable in `normalize`, junk value 0). -/
def listMin : List ℚ → ℚ
  | [] => 0
  | x :: xs => xs.foldl min x

/-- `slices.Max` (empty case unreachable in `normalize`, junk value 0). -/
def listMax : List ℚ → ℚ
  | [] => 0
  | x :: xs => xs.foldl max x

/-- `normalize` (`elo.go` lines 410-444): length < 2 untouched; all
adjacent-equal collapses to 0.5; otherwise subtract the minimum from every
element, then divide every element by the maximum of the shifted list. -/
def normalize (s : List ℚ) : List ℚ :=
  if s.length < 2 then s
  else if isEqualCheck s then List.replicate s.length (1/2)
  else
    let mn := listMin s
    let s1 := s.map (fun f => f - mn)
    let mx := listMax s1
    s1.map (fun f => f / mx)

/-- One iteration of the Elo diff loop (`elo.go` lines 326-332), updating the
`diffs` accumulator at positions `a` and `a+1`. -/
def diffStep (p : ℚ → ℚ) (base : ℚ) (r k s : List ℚ) (d : List ℚ) (a : ℕ) : List ℚ :=
  let b := a + 1
  let Qa := p (r.getD a 0 / base)
  let Qb := p (r.getD b 0 / base)
  let Ea := Qa / (Qa + Qb)
  let Eb := Qb / (Qa + Qb)
  let d1 := d.set a (d.getD a 0 + k.getD a 0 * (s.getD a 0 - Ea))
  d1.set b (d1.getD b 0 + k.getD b 0 * (s.getD b 0 - Eb))

/-- The full diff loop (`elo.go` lines 325-332): `diffs` starts at all zeros
and `diffStep` runs for `a = 0 .. l-2`. -/
def diffsLoop (p : ℚ → ℚ) (base : ℚ) (r k s : List ℚ) : List ℚ :=
  (List.range (r.length - 1)).foldl (diffStep p base r k s) (List.replicate r.length 0)

/-- The un-sort scatter (`elo.go` lines 335-341): starting from a clone of
`ratings`, for each `(i, j)` in the enumeration of `idx`,
`newRatings[j] += diffs[i]`.  The counter `i` starts at 0. -/
def scatter (ratings : List ℚ) (idx : List ℕ) (diffs : List ℚ) (i : ℕ) : List ℚ :=
  match idx with
  | [] => ratings
  | j :: rest => scatter (ratings.set j (ratings.getD j 0 + diffs.getD i 0)) rest diffs (i + 1)

/-- The main branch of `Elo.Calculate` (`elo.go` lines 303-341): the indices
`0 .. l-1` are stably sorted by score, the working arrays are built in score
order, the diff loop runs, and the diffs are scattered back to input order
on top of a clone of `ratings`. -/
def calcCore (p : ℚ → ℚ) (base : ℚ) (ratings kFactors normalizedScores : List ℚ) : List ℚ :=
  let l := ratings.length
  let idx := (List.range l).mergeSort (cmp normalizedScores)
  let r := idx.map (fun j => ratings.getD j 0)
  let k := idx.map (fun j => kFactors.getD j 0)
  let s := idx.map (fun j => normalizedScores.getD j 0)
  let diffs := diffsLoop p base r k s
  scatter ratings idx diffs 0

/-- `Elo.Calculate` (`elo.go` lines 285-344).  Mis-shapen inputs yield the
validation error; 0 or 1 competitors return a clone of `ratings`; otherwise
the main branch `calcCore` runs. -/
def Elo.Calculate (p : ℚ → ℚ) (e : Elo) (ratings kFactors normalizedScores : List ℚ) :
    Except String (List ℚ) :=
  let l := ratings.length
  if l ≠ kFactors.length ∨ l ≠ normalizedScores.length then
    .error lengthErrMsg
  else if l = 0 then .ok ratings
  else if l = 1 then .ok ratings
  else .ok (calcCore p e.Base ratings kFactors normalizedScores)

/-- `Elo.FFA` (`elo.go` lines 364-376): project ratings and K-factors from
the players, normalize a clone of the scores, delegate to `Calculate`. -/
def Elo.FFA (p : ℚ → ℚ) (e : Elo) (players : List Player) (scores : List ℚ) :
    Except String (List ℚ) :=
  let r := players.map Player.rating
  let k := players.map Player.kFactor
  let s := normalize scores
  e.Calculate p r k s

/-- `Elo.Golf` (`elo.go` lines 390-406): like `FFA` but each normalized score
`n` is replaced by `1 - n` (lower raw scores are better). -/
def Elo.Golf (p : ℚ → ℚ) (e : Elo) (players : List Player) (scores : List ℚ) :
    Except String (List ℚ) :=
  let r := players.map Player.rating
  let k := players.map Player.kFactor
  let s0 := normalize scores
  let s := s0.map (fun n => 1 - n)
  e.Calculate p r k s

/-- `Elo.Race` (`elo.go` lines 380-386): durations are modelled as `ℤ`
(Go `time.Duration` is an `int64` count of nanoseconds); `times[i] / step`
is Go's truncating integer division, i.e. `Int.tdiv`. -/
def Elo.Race (p : ℚ → ℚ) (e : Elo) (players : List Player) (times : List ℤ) (step : ℤ) :
    Except String (List ℚ) :=
  let s := times.map (fun t => ((Int.tdiv t step : ℤ) : ℚ))
  e.Golf p players s

/-- `Elo.H2H` (`elo.go` lines 347-352): call `FFA` on the two players and two
scores, discard the error, and copy the result into a zero-initialized pair
(on the impossible error branch the pair stays `(0, 0)`). -/
def Elo.H2H (p : ℚ → ℚ) (e : Elo) (p1 p2 : Player) (s1 s2 : ℚ) : ℚ × ℚ :=
  match e.FFA p [p1, p2] [s1, s2] with
  | .ok nr => (nr.getD 0 0, nr.getD 1 0)
  | .error _ => (0, 0)

/-- A concrete stand-in for `math.Pow(10, ·)`: agrees with the mathematical
`10^x` at every integer argument (where `float64` also computes it exactly
for small exponents), and is strictly positive everywhere. -/
def pow10int (x : ℚ) : ℚ := if x.den = 1 then (10 : ℚ) ^ x.num else 1

theorem pow10int_pos : ∀ x, 0 < pow10int x := by
  intro x
  unfold pow10int
  split
  · exact zpow_pos (by norm_num) _
  · norm_num

/-! ### Basic list helpers -/

theorem getD_set_self {l : List ℚ} {n : ℕ} {a : ℚ} (h : n < l.length) :
    (l.set n a).getD n 0 = a := by
  simp [List.getD_eq_getElem?_getD, List.getElem?_set_self h]

theorem getD_set_ne {l : List ℚ} {n m : ℕ} {a : ℚ} (h : n ≠ m) :
    (l.set n a).getD m 0 = l.getD m 0 := by
  simp [List.getD_eq_getElem?_getD, List.getElem?_set_ne h]

theorem set_getD_self {l : List ℚ} {n : ℕ} (h : n < l.length) :
    l.set n (l.getD n 0) = l := by
  apply List.ext_getElem?
  intro m
  by_cases hm : n = m
  · subst hm
    rw [List.getElem?_set_self h, List.getD_eq_getElem _ _ h, List.getElem?_eq_getElem h]
  · rw [List.getElem?_set_ne hm]

theorem getD_replicate_zero (n i : ℕ) : (List.replicate n (0:ℚ)).getD i 0 = 0 := by
  rcases lt_or_le i n with h | h
  · rw [List.getD_eq_getElem _ _ (by simpa using h), List.getElem_replicate]
  · rw [List.getD_eq_default _ _ (by simpa using h)]

theorem foldl_fixed {α β : Type} {f : β → α → β} {b : β} :
    ∀ {l : List α}, (∀ a ∈ l, f b a = b) → l.foldl f b = b
  | [], _ => rfl
  | a :: l, h => by
    rw [List.foldl_cons, h a (by simp)]
    exact foldl_fixed fun x hx => h x (by simp [hx])

/-! ### Lemmas about `scatter` -/

theorem scatter_length (diffs : List ℚ) :
    ∀ (idx : List ℕ) (ratings : List ℚ) (i : ℕ),
      (scatter ratings idx diffs i).length = ratings.length
  | [], _, _ => rfl
  | j :: rest, ratings, i => by
    rw [scatter, scatter_length diffs rest _ (i+1), List.length_set]

theorem scatter_getD_not_mem (diffs : List ℚ) {j : ℕ} :
    ∀ {idx : List ℕ} (ratings : List ℚ) (i : ℕ), j ∉ idx →
      (scatter ratings idx diffs i).getD j 0 = ratings.getD j 0
  | [], _, _, _ => rfl
  | a :: rest, ratings, i, h => by
    rw [scatter, scatter_getD_not_mem diffs _ (i+1) (fun hr => h (by simp [hr])),
      getD_set_ne (fun ha => h (by simp [ha]))]

theorem scatter_getD (diffs : List ℚ) :
    ∀ (idx : List ℕ) (ratings : List ℚ) (i : ℕ), idx.Nodup →
      ∀ (m : ℕ) (hm : m < idx.length), idx.get ⟨m, hm⟩ < ratings.length →
      (scatter ratings idx diffs i).getD (idx.get ⟨m, hm⟩) 0
        = ratings.getD (idx.get ⟨m, hm⟩) 0 + diffs.getD (i + m) 0
  | [], _, _, _, m, hm => by simp at hm
  | a :: rest, ratings, i, hnd, 0, hm => by
    intro hlen
    simp only [List.get] at hlen ⊢
    rw [scatter, scatter_getD_not_mem diffs _ (i+1) (List.nodup_cons.mp hnd).1,
      getD_set_self hlen]
    simp
  | a :: rest, ratings, i, hnd, m+1, hm => by
    intro hlen
    simp only [List.get] at hlen ⊢
    have hmem : rest.get ⟨m, by simpa using hm⟩ ∈ rest := List.get_mem _ _ _
    have hne : a ≠ rest.get ⟨m, by simpa using hm⟩ := by
      intro h
      exact (List.nodup_cons.mp hnd).1 (h ▸ hmem)
    rw [scatter, scatter_getD diffs rest _ (i+1) (List.nodup_cons.mp hnd).2 m
        (by simpa using hm) (by simpa using hlen),
      getD_set_ne hne]
    ring_nf

theorem scatter_zero_diffs (n : ℕ) :
    ∀ (idx : List ℕ) (ratings : List ℚ) (i : ℕ), (∀ j ∈ idx, j < ratings.length) →
      scatter ratings idx (List.replicate n 0) i = ratings
  | [], _, _, _ => rfl
  | j :: rest, ratings, i, h => by
    rw [scatter, getD_replicate_zero, add_zero, set_getD_self (h j (by simp)),
      scatter_zero_diffs n rest ratings (i+1) (fun x hx => h x (by simp [hx]))]

/-! ### Length preservation and success shape of `Calculate` -/

theorem normalize_length (s : List ℚ) : (normalize s).length = s.length := by
  unfold normalize
  split
  · rfl
  · split
    · simp
    · simp

theorem calculate_ok_exists (p : ℚ → ℚ) (e : Elo) (ratings kFactors normalizedScores : List ℚ)
    (hk : ratings.length = kFactors.length) (hs : ratings.length = normalizedScores.length) :
    ∃ out, Elo.Calculate p e ratings kFactors normalizedScores = .ok out ∧
      out.length = ratings.length := by
  unfold Elo.Calculate
  rw [if_neg (by omega)]
  split
  · exact ⟨ratings, rfl, rfl⟩
  · split
    · exact ⟨ratings, rfl, rfl⟩
    · exact ⟨_, rfl, scatter_length _ _ _ _⟩

/-- C4: `Calculate` returns the validation error exactly when the three input
sequences do not all have the same length, and returns a successful result
(with no error) exactly when they do.  The embedding is a total function, so
the absence of panics corresponds to the fact that every branch returns a
value; on the error branch no rating sequence is produced (Go returns `nil`). -/
theorem calculate_error_iff (p : ℚ → ℚ) (e : Elo) (ratings kFactors normalizedScores : List ℚ) :
    (Elo.Calculate p e ratings kFactors normalizedScores = .error lengthErrMsg ↔
      (ratings.length ≠ kFactors.length ∨ ratings.length ≠ normalizedScores.length)) ∧
    ((∃ out, Elo.Calculate p e ratings kFactors normalizedScores = .ok out) ↔
      (ratings.length = kFactors.length ∧ ratings.length = normalizedScores.length)) := by
  by_cases h : ratings.length = kFactors.length ∧ ratings.length = normalizedScores.length
  · obtain ⟨out, hout, -⟩ := calculate_ok_exists p e ratings kFactors normalizedScores h.1 h.2
    rw [hout]
    constructor
    · simp only [reduceCtorEq, false_iff]
      omega
    · exact ⟨fun _ => h, fun _ => ⟨out, rfl⟩⟩
  · rw [not_and_or] at h
    have herr : Elo.Calculate p e ratings kFactors normalizedScores = .error lengthErrMsg := by
      unfold Elo.Calculate
      rw [if_pos (by tauto)]
    rw [herr]
    constructor
    · simp [h]
    · simp only [reduceCtorEq, exists_false, false_iff]
      rw [not_and_or]
      exact h

theorem calculate_short_circuit (p : ℚ → ℚ) (e : Elo)
    (ratings kFactors normalizedScores : List ℚ)
    (hk : ratings.length = kFactors.length) (hs : ratings.length = normalizedScores.length)
    (hlen : ratings.length ≤ 1) :
    Elo.Calculate p e ratings kFactors normalizedScores = .ok ratings := by
  unfold Elo.Calculate
  rw [if_neg (by omega)]
  rcases Nat.le_one_iff_eq_zero_or_eq_one.mp hlen with h0 | h1
  · rw [if_pos h0]
  · rw [if_neg (by omega), if_pos h1]

/-- C5: on equal-length inputs with 0 or 1 competitors, `Calculate` returns
the ratings sequence unchanged, element for element. -/
theorem calculate_short (p : ℚ → ℚ) (e : Elo) (ratings kFactors normalizedScores : List ℚ)
    (hk : ratings.length = kFactors.length) (hs : ratings.length = normalizedScores.length)
    (hlen : ratings.length ≤ 1) :
    Elo.Calculate p e ratings kFactors normalizedScores = .ok ratings :=
  calculate_short_circuit p e ratings kFactors normalizedScores hk hs hlen

/-- Witness for C5 at a one-competitor call. -/
theorem calculate_short_witness :
    Elo.Calculate pow10int ⟨400⟩ [1500] [20] [1] = .ok [1500] :=
  calculate_short pow10int ⟨400⟩ [1500] [20] [1] (by decide) (by decide) (by decide)

/-! ### Lemmas about `listMin`, `listMax` and `normalize` -/

theorem foldl_min_le : ∀ (t : List ℚ) (a : ℚ),
    t.foldl min a ≤ a ∧ ∀ x ∈ t, t.foldl min a ≤ x
  | [], a => ⟨le_refl a, by simp⟩
  | b :: t, a => by
    obtain ⟨h1, h2⟩ := foldl_min_le t (min a b)
    refine ⟨le_trans h1 (min_le_left a b), ?_⟩
    intro x hx
    rcases List.mem_cons.mp hx with rfl | hx
    · exact le_trans h1 (min_le_right a x)
    · exact h2 x hx

theorem le_foldl_max : ∀ (t : List ℚ) (a : ℚ),
    a ≤ t.foldl max a ∧ ∀ x ∈ t, x ≤ t.foldl max a
  | [], a => ⟨le_refl a, by simp⟩
  | b :: t, a => by
    obtain ⟨h1, h2⟩ := le_foldl_max t (max a b)
    refine ⟨le_trans (le_max_left a b) h1, ?_⟩
    intro x hx
    rcases List.mem_cons.mp hx with rfl | hx
    · exact le_trans (le_max_right a x) h1
    · exact h2 x hx

theorem foldl_min_mem : ∀ (t : List ℚ) (a : ℚ), t.foldl min a ∈ a :: t
  | [], a => by simp
  | b :: t, a => by
    have h := foldl_min_mem t (min a b)
    rw [List.foldl_cons]
    rcases List.mem_cons.mp h with hm | hm
    · rcases min_choice a b with hab | hab <;> rw [hm, hab] <;> simp
    · simp [hm]

theorem foldl_max_mem : ∀ (t : List ℚ) (a : ℚ), t.foldl max a ∈ a :: t
  | [], a => by simp
  | b :: t, a => by
    have h := foldl_max_mem t (max a b)
    rw [List.foldl_cons]
    rcases List.mem_cons.mp h with hm | hm
    · rcases max_choice a b with hab | hab <;> rw [hm, hab] <;> simp
    · simp [hm]

theorem listMin_le {s : List ℚ} {x : ℚ} (hx : x ∈ s) : listMin s ≤ x := by
  cases s with
  | nil => simp at hx
  | cons a t =>
    rcases List.mem_cons.mp hx with rfl | hx
    · exact (foldl_min_le t x).1
    · exact (foldl_min_le t a).2 x hx

theorem le_listMax {s : List ℚ} {x : ℚ} (hx : x ∈ s) : x ≤ listMax s := by
  cases s with
  | nil => simp at hx
  | cons a t =>
    rcases List.mem_cons.mp hx with rfl | hx
    · exact (le_foldl_max t x).1
    · exact (le_foldl_max t a).2 x hx

theorem listMin_mem {s : List ℚ} (hs : s ≠ []) : listMin s ∈ s := by
  cases s with
  | nil => exact absurd rfl hs
  | cons a t => exact foldl_min_mem t a

theorem listMax_mem {s : List ℚ} (hs : s ≠ []) : listMax s ∈ s := by
  cases s with
  | nil => exact absurd rfl hs
  | cons a t => exact foldl_max_mem t a

theorem foldl_max_map_sub (c : ℚ) : ∀ (t : List ℚ) (a : ℚ),
    (t.map (fun x => x - c)).foldl max (a - c) = t.foldl max a - c
  | [], _ => rfl
  | b :: t, a => by
    rw [List.map_cons, List.foldl_cons, List.foldl_cons, max_sub_sub_right,
      foldl_max_map_sub c t (max a b)]

theorem listMax_map_sub {s : List ℚ} (hs : s ≠ []) (c : ℚ) :
    listMax (s.map (fun x => x - c)) = listMax s - c := by
  cases s with
  | nil => exact absurd rfl hs
  | cons a t => exact foldl_max_map_sub c t a

theorem getD_mem {s : List ℚ} {i : ℕ} (h : i < s.length) : s.getD i 0 ∈ s := by
  rw [List.getD_eq_getElem _ _ h]
  exact List.getElem_mem h

/-- C7: `normalize` leaves every sequence shorter than 2 elements untouched,
and maps every all-equal input of length at least 2 (equality judged pairwise
within epsilon `1e-9`) uniformly to 0.5 in every element. -/
theorem normalize_ties (s : List ℚ) :
    (s.length < 2 → normalize s = s) ∧
    (2 ≤ s.length → (∀ x ∈ s, ∀ y ∈ s, |x - y| ≤ 1 / 10^9) →
      normalize s = List.replicate s.length (1/2)) := by
  constructor
  · intro h
    unfold normalize
    rw [if_pos h]
  · intro h2 heq
    have hcheck : isEqualCheck s = true := by
      unfold isEqualCheck
      rw [List.all_eq_true]
      intro i hi
      rw [List.mem_range] at hi
      exact decide_eq_true
        (heq _ (getD_mem (by omega)) _ (getD_mem (by omega)))
    unfold normalize
    rw [if_neg (by omega), if_pos hcheck]

/-- Witness for C7: a genuine tie of length 2 collapses to 0.5 everywhere. -/
theorem normalize_ties_witness : normalize [(1:ℚ), 1] = [1/2, 1/2] := by
  have h := (normalize_ties [(1:ℚ), 1]).2 (by decide)
    (by
      intro x hx y hy
      simp only [List.mem_cons, List.not_mem_nil, or_false] at hx hy
      rcases hx with rfl | rfl <;> rcases hy with rfl | rfl <;>
        rw [abs_sub_le_iff] <;> constructor <;> norm_num)
  simpa using h

/-- C6 as stated is false on the code: the code's tie detection only compares
adjacent elements, so a sequence whose adjacent gaps are all below `1e-9` but
whose endpoints differ by more than `1e-9` is treated as a tie and collapsed
to 0.5, rather than rescaled by `(x - min) / (max - min)`. -/
theorem normalize_rescale_counterexample :
    2 ≤ ([0, 9/10^10, 18/10^10] : List ℚ).length ∧
    ¬ (∀ x ∈ ([0, 9/10^10, 18/10^10] : List ℚ),
        ∀ y ∈ ([0, 9/10^10, 18/10^10] : List ℚ), |x - y| ≤ 1 / 10^9) ∧
    normalize [0, 9/10^10, 18/10^10]
      ≠ ([0, 9/10^10, 18/10^10] : List ℚ).map
          (fun x => (x - listMin [0, 9/10^10, 18/10^10]) /
            (listMax [0, 9/10^10, 18/10^10] - listMin [0, 9/10^10, 18/10^10])) := by
  refine ⟨by norm_num, ?_, ?_⟩
  · intro hall
    have h := hall 0 (by simp) (18/10^10) (by simp)
    rw [abs_sub_le_iff] at h
    have := h.2
    norm_num at this
  · have hcheck : isEqualCheck [0, 9/10^10, 18/10^10] = true := by
      simp [isEqualCheck, List.range_succ, abs_sub_le_iff]
      norm_num
    have hLHS : normalize [0, 9/10^10, 18/10^10] = [1/2, 1/2, 1/2] := by
      unfold normalize
      rw [if_neg (by norm_num), if_pos hcheck]
      rfl
    rw [hLHS]
    have hmin : listMin [0, 9/10^10, 18/10^10] = 0 := by
      simp [listMin, min_def]
      norm_num
    have hmax : listMax [0, 9/10^10, 18/10^10] = 18/10^10 := by
      simp [listMax, max_def]
      norm_num
    rw [hmin, hmax]
    intro h
    rw [List.map_cons, List.cons_eq_cons] at h
    have := h.1
    norm_num at this

/-- C6 amended: for every score sequence of length at least 2 in which some
adjacent pair of elements differs by more than `1e-9` (the code's actual
not-all-equal test), `normalize` rescales it so each element becomes
`(x - min) / (max - min)`; the divisor is strictly positive (hence nonzero),
the extremes are attained, the lowest score maps to 0 and the highest to 1. -/
theorem normalize_rescale (s : List ℚ) (h2 : 2 ≤ s.length) (hne : isEqualCheck s = false) :
    0 < listMax s - listMin s ∧
    normalize s = s.map (fun x => (x - listMin s) / (listMax s - listMin s)) ∧
    listMin s ∈ s ∧ listMax s ∈ s ∧
    (listMin s - listMin s) / (listMax s - listMin s) = 0 ∧
    (listMax s - listMin s) / (listMax s - listMin s) = 1 := by
  have hs : s ≠ [] := by
    intro h
    rw [h] at h2
    simp at h2
  have hpos : 0 < listMax s - listMin s := by
    unfold isEqualCheck at hne
    rw [List.all_eq_false] at hne
    obtain ⟨i, hi, hgt⟩ := hne
    rw [List.mem_range] at hi
    rw [decide_eq_true_eq] at hgt
    push_neg at hgt
    have hx : s.getD i 0 ∈ s := getD_mem (by omega)
    have hy : s.getD (i + 1) 0 ∈ s := getD_mem (by omega)
    have habs : |s.getD i 0 - s.getD (i+1) 0| ≤ listMax s - listMin s := by
      rw [abs_sub_le_iff]
      constructor
      · have := le_listMax hx
        have := listMin_le hy
        linarith
      · have := le_listMax hy
        have := listMin_le hx
        linarith
    have heps : (0:ℚ) < 1 / 10^9 := by norm_num
    linarith
  have heqn : normalize s = s.map (fun x => (x - listMin s) / (listMax s - listMin s)) := by
    unfold normalize
    rw [if_neg (by omega), if_neg (by simp [hne])]
    simp only [listMax_map_sub hs, List.map_map]
    rfl
  exact ⟨hpos, heqn, listMin_mem hs, listMax_mem hs, by rw [sub_self]; exact zero_div _,
    div_self (ne_of_gt hpos)⟩

/-- Witness for C6 (amended): a concrete rescale. -/
theorem normalize_rescale_witness : normalize [10, 12, 14] = [0, 1/2, 1] := by
  have hcheck : isEqualCheck [10, 12, 14] = false := by
    simp [isEqualCheck, List.range_succ, abs_sub_le_iff]
    norm_num
  have h := (normalize_rescale [10, 12, 14] (by decide) hcheck).2.1
  rw [h]
  have hmin : listMin [10, 12, 14] = 10 := by
    simp [listMin, min_def]
    norm_num
  have hmax : listMax [10, 12, 14] = 14 := by
    simp [listMax, max_def]
    norm_num
  rw [hmin, hmax]
  norm_num

/-! ### Claim C1: ties -/

theorem getD_map_getD_const {ratings : List ℚ} {c : ℚ} (hrc : ∀ x ∈ ratings, x = c)
    {idx : List ℕ} (hmem : ∀ j ∈ idx, j < ratings.length) {a : ℕ} (ha : a < idx.length) :
    (idx.map (fun j => ratings.getD j 0)).getD a 0 = c := by
  have h1 : (idx.map (fun j => ratings.getD j 0)).getD a 0 ∈
      idx.map (fun j => ratings.getD j 0) := getD_mem (by simpa using ha)
  rw [List.mem_map] at h1
  obtain ⟨j, hj, hval⟩ := h1
  rw [← hval]
  exact hrc _ (getD_mem (hmem j hj))

theorem half_self_div (Q : ℚ) (hQ : 0 < Q) : Q / (Q + Q) = 1/2 := by
  rw [← two_mul, div_eq_iff (by positivity)]
  ring

/-- If every rating equals `c` and every normalized score equals `1/2`, the
diff accumulator stays identically zero and `calcCore` returns the ratings
unchanged. -/
theorem calcCore_tie (p : ℚ → ℚ) (base : ℚ) (ratings kFactors normalizedScores : List ℚ)
    (c : ℚ) (hpos : ∀ x, 0 < p x)
    (hs : ratings.length = normalizedScores.length)
    (hrc : ∀ x ∈ ratings, x = c)
    (hsc : ∀ x ∈ normalizedScores, x = 1/2) :
    calcCore p base ratings kFactors normalizedScores = ratings := by
  simp only [calcCore]
  set l := ratings.length with hl
  set idx := (List.range l).mergeSort (cmp normalizedScores) with hidx
  have hmemidx : ∀ j ∈ idx, j < l := by
    intro j hj
    rw [hidx, List.mem_mergeSort, List.mem_range] at hj
    exact hj
  have hmemidx' : ∀ j ∈ idx, j < normalizedScores.length := by
    intro j hj
    have := hmemidx j hj
    omega
  have hidxlen : idx.length = l := by
    rw [hidx, (List.mergeSort_perm _ _).length_eq, List.length_range]
  set r := idx.map (fun j => ratings.getD j 0) with hr
  set s := idx.map (fun j => normalizedScores.getD j 0) with hsdef
  have hrlen : r.length = l := by rw [hr, List.length_map, hidxlen]
  have hslen : s.length = l := by rw [hsdef, List.length_map, hidxlen]
  have hdiffs : diffsLoop p base r (idx.map (fun j => kFactors.getD j 0)) s
      = List.replicate l 0 := by
    unfold diffsLoop
    rw [hrlen]
    apply foldl_fixed
    intro a ha
    rw [List.mem_range] at ha
    simp only [diffStep]
    have hQ : 0 < p (r.getD a 0 / base) := hpos _
    have hQeq : r.getD (a+1) 0 = r.getD a 0 := by
      rw [hr, getD_map_getD_const hrc hmemidx (by omega),
        getD_map_getD_const hrc hmemidx (by omega)]
    rw [hQeq]
    have hE : p (r.getD a 0 / base) / (p (r.getD a 0 / base) + p (r.getD a 0 / base))
        = 1/2 := half_self_div _ hQ
    rw [hE]
    have hsa : s.getD a 0 = 1/2 := by
      rw [hsdef]
      exact getD_map_getD_const hsc hmemidx' (by omega)
    have hsb : s.getD (a+1) 0 = 1/2 := by
      rw [hsdef]
      exact getD_map_getD_const hsc hmemidx' (by omega)
    rw [hsa, hsb]
    have hz : (1/2 - 1/2 : ℚ) = 0 := by norm_num
    rw [hz]
    simp only [mul_zero, add_zero]
    have h1 : a < (List.replicate l (0:ℚ)).length := by
      simp only [List.length_replicate]
      omega
    have h2 : a + 1 < (List.replicate l (0:ℚ)).length := by
      simp only [List.length_replicate]
      omega
    rw [set_getD_self h1, set_getD_self h2]
  rw [hdiffs]
  exact scatter_zero_diffs l idx ratings 0 (fun j hj => hmemidx j hj)

/-- C1 as stated is false on the code: with all scores equal (a tie) but
unequal ratings, the expected-outcome terms do not cancel and the ratings
change.  Here `Base = 1` and integer ratings make `pow10int` coincide with
the true `10^x`: the favourite loses rating in a tie, as the code's own
"upset tie" test also shows. -/
theorem calculate_tie_counterexample :
    Elo.Calculate pow10int ⟨1⟩ [2, 1] [20, 20] [1/2, 1/2] ≠ .ok [2, 1] := by
  have hval : Elo.Calculate pow10int ⟨1⟩ [2, 1] [20, 20] [1/2, 1/2]
      = .ok [2 + 20 * (1/2 - 100/110), 1 + 20 * (1/2 - 10/110)] := by
    simp [Elo.Calculate, calcCore, cmp, diffsLoop, diffStep, scatter, pow10int,
      List.range_succ, List.mergeSort, List.merge]
    norm_num
  rw [hval]
  intro h
  rw [Except.ok.injEq, List.cons_eq_cons] at h
  have := h.1
  norm_num at this

/-- C1 amended: when additionally all (old) ratings are equal, a uniform
score of `1/2` leaves every competitor's rating unchanged; in particular
ratings `{1500, 1500}`, K `{20, 20}`, scores `{0.5, 0.5}` yield
`{1500, 1500}` (see the witness). -/
theorem calculate_tie (p : ℚ → ℚ) (e : Elo) (ratings kFactors normalizedScores : List ℚ)
    (c : ℚ) (hpos : ∀ x, 0 < p x)
    (hk : ratings.length = kFactors.length) (hs : ratings.length = normalizedScores.length)
    (hrc : ∀ x ∈ ratings, x = c)
    (hsc : ∀ x ∈ normalizedScores, x = 1/2) :
    Elo.Calculate p e ratings kFactors normalizedScores = .ok ratings := by
  unfold Elo.Calculate
  rw [if_neg (by omega)]
  split
  · rfl
  · split
    · rfl
    · rw [calcCore_tie p e.Base ratings kFactors normalizedScores c hpos hs hrc hsc]

/-- Witness for C1 (amended): the claim's own concrete instance. -/
theorem calculate_tie_witness :
    Elo.Calculate pow10int ⟨400⟩ [1500, 1500] [20, 20] [1/2, 1/2] = .ok [1500, 1500] :=
  calculate_tie pow10int ⟨400⟩ [1500, 1500] [20, 20] [1/2, 1/2] 1500 pow10int_pos
    rfl rfl
    (by intro x hx; rcases List.mem_cons.mp hx with rfl | hx; · rfl
        · simpa using hx)
    (by intro x hx; rcases List.mem_cons.mp hx with rfl | hx; · rfl
        · simpa using hx)

/-! ### Claim C3: two-competitor zero-sum -/

/-- C3 as stated is false on the code: a 2-competitor call with equal
K-factors but scores `{1, 1}` (which `Calculate` accepts as given — it does
not normalize) gives both competitors a delta of `+10`, so the two deltas are
not opposite and their sum is `20`, not `0`. -/
theorem calculate_zero_sum_counterexample :
    Elo.Calculate pow10int ⟨1⟩ [1, 1] [20, 20] [1, 1] = .ok [11, 11] ∧
    ¬ (((11:ℚ) - 1) + ((11:ℚ) - 1) = 0) := by
  constructor
  · simp [Elo.Calculate, calcCore, cmp, diffsLoop, diffStep, scatter, pow10int,
      List.range_succ, List.mergeSort, List.merge]
    norm_num
  · norm_num

/-- C3 amended: for every 2-competitor call with equal K-factors in which the
two normalized scores sum to 1 (as every output of the score normalizer does
for two competitors), the two rating changes are equal in magnitude and
opposite in sign: their sum is zero. -/
theorem calculate_two_zero_sum (p : ℚ → ℚ) (e : Elo) (r0 r1 k0 s0 s1 : ℚ)
    (hpos : ∀ x, 0 < p x) (hsum : s0 + s1 = 1) :
    ∃ out, Elo.Calculate p e [r0, r1] [k0, k0] [s0, s1] = .ok out ∧ out.length = 2 ∧
      (out.getD 0 0 - r0) + (out.getD 1 0 - r1) = 0 := by
  have hcalc : Elo.Calculate p e [r0, r1] [k0, k0] [s0, s1]
      = .ok (calcCore p e.Base [r0, r1] [k0, k0] [s0, s1]) := by
    unfold Elo.Calculate
    rw [if_neg (by simp), if_neg (by simp), if_neg (by simp)]
  have hQ : p (r0 / e.Base) + p (r1 / e.Base) ≠ 0 :=
    ne_of_gt (add_pos (hpos _) (hpos _))
  have hQ' : p (r1 / e.Base) + p (r0 / e.Base) ≠ 0 :=
    ne_of_gt (add_pos (hpos _) (hpos _))
  by_cases hc : s0 ≤ s1
  · have hle : cmp [s0, s1] 0 1 = true := by simp [cmp, hc]
    have hsort : ([0, 1] : List ℕ).mergeSort (cmp [s0, s1]) = [0, 1] := by
      simp [List.mergeSort, List.merge, hle]
    have hcore : calcCore p e.Base [r0, r1] [k0, k0] [s0, s1]
        = [r0 + k0 * (s0 - p (r0 / e.Base) / (p (r0 / e.Base) + p (r1 / e.Base))),
           r1 + k0 * (s1 - p (r1 / e.Base) / (p (r0 / e.Base) + p (r1 / e.Base)))] := by
      simp [calcCore, hsort, diffsLoop, diffStep, scatter, List.range_succ]
    rw [hcore] at hcalc
    refine ⟨_, hcalc, by simp, ?_⟩
    have hE : p (r0 / e.Base) / (p (r0 / e.Base) + p (r1 / e.Base))
        + p (r1 / e.Base) / (p (r0 / e.Base) + p (r1 / e.Base)) = 1 := by
      field_simp
    have hstep : (r0 + k0 * (s0 - p (r0 / e.Base) / (p (r0 / e.Base) + p (r1 / e.Base))) - r0)
        + (r1 + k0 * (s1 - p (r1 / e.Base) / (p (r0 / e.Base) + p (r1 / e.Base))) - r1)
        = k0 * ((s0 + s1)
          - (p (r0 / e.Base) / (p (r0 / e.Base) + p (r1 / e.Base))
            + p (r1 / e.Base) / (p (r0 / e.Base) + p (r1 / e.Base)))) := by
      ring
    simp only [List.getD_cons_zero, List.getD_cons_succ]
    rw [hstep, hsum, hE, sub_self, mul_zero]
  · have hle : cmp [s0, s1] 0 1 = false := by simp [cmp, hc]
    have hsort : ([0, 1] : List ℕ).mergeSort (cmp [s0, s1]) = [1, 0] := by
      simp [List.mergeSort, List.merge, hle]
    have hcore : calcCore p e.Base [r0, r1] [k0, k0] [s0, s1]
        = [r0 + k0 * (s0 - p (r0 / e.Base) / (p (r1 / e.Base) + p (r0 / e.Base))),
           r1 + k0 * (s1 - p (r1 / e.Base) / (p (r1 / e.Base) + p (r0 / e.Base)))] := by
      simp [calcCore, hsort, diffsLoop, diffStep, scatter, List.range_succ]
    rw [hcore] at hcalc
    refine ⟨_, hcalc, by simp, ?_⟩
    have hE : p (r0 / e.Base) / (p (r1 / e.Base) + p (r0 / e.Base))
        + p (r1 / e.Base) / (p (r1 / e.Base) + p (r0 / e.Base)) = 1 := by
      field_simp
      ring
    have hstep : (r0 + k0 * (s0 - p (r0 / e.Base) / (p (r1 / e.Base) + p (r0 / e.Base))) - r0)
        + (r1 + k0 * (s1 - p (r1 / e.Base) / (p (r1 / e.Base) + p (r0 / e.Base))) - r1)
        = k0 * ((s0 + s1)
          - (p (r0 / e.Base) / (p (r1 / e.Base) + p (r0 / e.Base))
            + p (r1 / e.Base) / (p (r1 / e.Base) + p (r0 / e.Base)))) := by
      ring
    simp only [List.getD_cons_zero, List.getD_cons_succ]
    rw [hstep, hsum, hE, sub_self, mul_zero]

/-- Witness for C3 (amended): a decisive 2-competitor match. -/
theorem calculate_two_zero_sum_witness :
    ∃ out, Elo.Calculate pow10int ⟨1⟩ [2, 1] [20, 20] [1, 0] = .ok out ∧ out.length = 2 ∧
      (out.getD 0 0 - 2) + (out.getD 1 0 - 1) = 0 :=
  calculate_two_zero_sum pow10int ⟨1⟩ 2 1 20 1 0 pow10int_pos (by norm_num)

/-! ### Claim C10: the error discarded by `H2H` is unreachable -/

/-- C10: for every pair of players and pair of scores, the `FFA` call made
inside `H2H` works on three sequences of length exactly 2, so it cannot
return the length-mismatch error; `H2H` therefore always returns the two
genuinely updated ratings produced by that call. -/
theorem h2h_ffa_ok (p : ℚ → ℚ) (e : Elo) (p1 p2 : Player) (s1 s2 : ℚ) :
    ∃ nr, Elo.FFA p e [p1, p2] [s1, s2] = .ok nr ∧ nr.length = 2 ∧
      Elo.H2H p e p1 p2 s1 s2 = (nr.getD 0 0, nr.getD 1 0) := by
  obtain ⟨out, hout, houtlen⟩ := calculate_ok_exists p e ([p1, p2].map Player.rating)
    ([p1, p2].map Player.kFactor) (normalize [s1, s2]) (by simp)
    (by rw [normalize_length]; simp)
  have hFFA : Elo.FFA p e [p1, p2] [s1, s2] = .ok out := hout
  refine ⟨out, hFFA, by simpa using houtlen, ?_⟩
  unfold Elo.H2H
  rw [hFFA]

/-! ### Claim C8: `Race` delegates to `Golf` on quantized times -/

/-- C8: `Race(players, times, step)` equals `Golf(players, s)` where `s[i]`
is the truncating integer division of `times[i]` by `step`; and the concrete
race with times `{100ms, 120ms, 140ms}` and step `10ms` over ratings
`{1700, 1500, 1300}` (K = 20 each) equals the general calculator applied to
scores `{1, 0.5, 0}` — uniformly in the model of `math.Pow(10, ·)`. -/
theorem race_eq_golf (p : ℚ → ℚ) (e : Elo) (players : List Player) (times : List ℤ)
    (step : ℤ) (hstep : 0 < step) :
    (Elo.Race p e players times step
      = Elo.Golf p e players (times.map (fun t => ((Int.tdiv t step : ℤ) : ℚ)))) ∧
    ∀ q : ℚ → ℚ,
      Elo.Race q ⟨400⟩ [⟨1700, 20⟩, ⟨1500, 20⟩, ⟨1300, 20⟩]
        [100000000, 120000000, 140000000] 10000000
      = Elo.Calculate q ⟨400⟩ [1700, 1500, 1300] [20, 20, 20] [1, 1/2, 0] := by
  constructor
  · rfl
  · intro q
    have h1 : (([100000000, 120000000, 140000000] : List ℤ).map
        (fun t => ((Int.tdiv t 10000000 : ℤ) : ℚ))) = [10, 12, 14] := by
      simp
      norm_num [Int.tdiv]
    have hcheck : isEqualCheck [10, 12, 14] = false := by
      simp [isEqualCheck, List.range_succ, abs_sub_le_iff]
      norm_num
    have hnorm : normalize [10, 12, 14] = [0, 1/2, 1] := by
      unfold normalize
      rw [if_neg (by norm_num), if_neg (by simp [hcheck])]
      simp only [listMin, listMax, List.foldl_cons, List.foldl_nil, List.map_cons,
        List.map_nil, min_def, max_def]
      norm_num
    have hrace : Elo.Race q ⟨400⟩ [⟨1700, 20⟩, ⟨1500, 20⟩, ⟨1300, 20⟩]
        [100000000, 120000000, 140000000] 10000000
        = Elo.Golf q ⟨400⟩ [⟨1700, 20⟩, ⟨1500, 20⟩, ⟨1300, 20⟩] [10, 12, 14] := by
      rw [Elo.Race, h1]
    rw [hrace]
    simp only [Elo.Golf, hnorm, List.map_cons, List.map_nil]
    norm_num

/-- Witness for C8 at the claim's concrete race. -/
theorem race_eq_golf_witness :
    (Elo.Race pow10int ⟨400⟩ [⟨1700, 20⟩, ⟨1500, 20⟩, ⟨1300, 20⟩]
        [100000000, 120000000, 140000000] 10000000
      = Elo.Golf pow10int ⟨400⟩ [⟨1700, 20⟩, ⟨1500, 20⟩, ⟨1300, 20⟩]
          (([100000000, 120000000, 140000000] : List ℤ).map
            (fun t => ((Int.tdiv t 10000000 : ℤ) : ℚ)))) ∧
    Elo.Race pow10int ⟨400⟩ [⟨1700, 20⟩, ⟨1500, 20⟩, ⟨1300, 20⟩]
        [100000000, 120000000, 140000000] 10000000
      = Elo.Calculate pow10int ⟨400⟩ [1700, 1500, 1300] [20, 20, 20] [1, 1/2, 0] := by
  have h := race_eq_golf pow10int ⟨400⟩ [⟨1700, 20⟩, ⟨1500, 20⟩, ⟨1300, 20⟩]
    [100000000, 120000000, 140000000] 10000000 (by norm_num)
  exact ⟨h.1, h.2 pow10int⟩

/-! ### Claim C2: permutation equivariance -/

/-- A permutation of `Fin l` as a function on `ℕ` (identity outside `[0, l)`). -/
def permNat {l : ℕ} (σ : Equiv.Perm (Fin l)) (n : ℕ) : ℕ :=
  if h : n < l then (σ ⟨n, h⟩ : ℕ) else n

theorem permNat_lt {l : ℕ} (σ : Equiv.Perm (Fin l)) {n : ℕ} (h : n < l) :
    permNat σ n < l := by
  unfold permNat
  rw [dif_pos h]
  exact (σ ⟨n, h⟩).isLt

theorem permNat_inj_on {l : ℕ} (σ : Equiv.Perm (Fin l)) {a b : ℕ}
    (ha : a < l) (hb : b < l) (h : permNat σ a = permNat σ b) : a = b := by
  unfold permNat at h
  rw [dif_pos ha, dif_pos hb] at h
  have h2 := σ.injective (Fin.val_injective h)
  exact congrArg Fin.val h2

theorem permNat_mk {l : ℕ} (σ : Equiv.Perm (Fin l)) {j : ℕ} (hj : j < l) :
    (⟨permNat σ j, permNat_lt σ hj⟩ : Fin l) = σ ⟨j, hj⟩ := by
  apply Fin.ext
  simp [permNat, hj]

theorem getD_ofFn {l : ℕ} (f : Fin l → ℚ) {j : ℕ} (hj : j < l) :
    (List.ofFn f).getD j 0 = f ⟨j, hj⟩ := by
  rw [List.getD_eq_getElem _ _ (by simpa using hj), List.getElem_ofFn]

theorem cmp_trans (s : List ℚ) : ∀ (a b c : ℕ), cmp s a b → cmp s b c → cmp s a c := by
  intro a b c hab hbc
  simp only [cmp, decide_eq_true_eq] at hab hbc ⊢
  exact le_trans hab hbc

theorem cmp_total (s : List ℚ) : ∀ (a b : ℕ), cmp s a b || cmp s b a := by
  intro a b
  simp only [cmp, Bool.or_eq_true, decide_eq_true_eq]
  exact le_total _ _

/-- With pairwise-distinct scores the stable sort of the permuted input is
the permuted stable sort, so `calcCore` commutes with any permutation of the
competitors. -/
theorem calcCore_perm (p : ℚ → ℚ) (base : ℚ) {l : ℕ}
    (R K S : Fin l → ℚ) (σ : Equiv.Perm (Fin l)) (hinj : Function.Injective S) :
    calcCore p base (List.ofFn (fun i => R (σ i))) (List.ofFn (fun i => K (σ i)))
        (List.ofFn (fun i => S (σ i)))
      = List.ofFn (fun i =>
          (calcCore p base (List.ofFn R) (List.ofFn K) (List.ofFn S)).getD (σ i) 0) := by
  simp only [calcCore, List.length_ofFn]
  set idx1 := (List.range l).mergeSort (cmp (List.ofFn S)) with hidx1
  set idx2 := (List.range l).mergeSort (cmp (List.ofFn (fun i => S (σ i)))) with hidx2
  have hperm1 : List.Perm idx1 (List.range l) := List.mergeSort_perm _ _
  have hperm2 : List.Perm idx2 (List.range l) := List.mergeSort_perm _ _
  have hnd1 : idx1.Nodup := hperm1.nodup_iff.mpr (List.nodup_range l)
  have hnd2 : idx2.Nodup := hperm2.nodup_iff.mpr (List.nodup_range l)
  have hmem1 : ∀ j ∈ idx1, j < l := fun j hj => List.mem_range.mp (hperm1.mem_iff.mp hj)
  have hmem2 : ∀ j ∈ idx2, j < l := fun j hj => List.mem_range.mp (hperm2.mem_iff.mp hj)
  have hpair1 : idx1.Pairwise
      (fun a b => (List.ofFn S).getD a 0 < (List.ofFn S).getD b 0) := by
    have hsorted : idx1.Pairwise (fun a b => cmp (List.ofFn S) a b) :=
      List.sorted_mergeSort (cmp_trans _) (cmp_total _) (List.range l)
    refine List.Pairwise.imp_of_mem ?_ (hsorted.and hnd1)
    intro a b ha hb hab
    obtain ⟨hle, hne⟩ := hab
    simp only [cmp, decide_eq_true_eq] at hle
    refine lt_of_le_of_ne hle ?_
    intro hval
    apply hne
    rw [getD_ofFn S (hmem1 a ha), getD_ofFn S (hmem1 b hb)] at hval
    exact congrArg Fin.val (hinj hval)
  have hrange_perm : List.Perm ((List.range l).map (permNat σ)) (List.range l) := by
    apply List.perm_of_nodup_nodup_toFinset_eq
    · exact ((List.nodup_range l).map_on
        (fun a ha b hb h =>
          permNat_inj_on σ (List.mem_range.mp ha) (List.mem_range.mp hb) h))
    · exact List.nodup_range l
    · apply List.toFinset.ext
      intro x
      simp only [List.mem_toFinset, List.mem_map, List.mem_range]
      constructor
      · rintro ⟨j, hj, rfl⟩
        exact permNat_lt σ hj
      · intro hx
        refine ⟨permNat σ.symm x, permNat_lt σ.symm hx, ?_⟩
        unfold permNat
        rw [dif_pos hx, dif_pos (σ.symm ⟨x, hx⟩).isLt]
        simp [Fin.eta]
  have hMperm : List.Perm (idx2.map (permNat σ)) (List.range l) := (hperm2.map _).trans hrange_perm
  have hpairM : (idx2.map (permNat σ)).Pairwise
      (fun a b => (List.ofFn S).getD a 0 < (List.ofFn S).getD b 0) := by
    rw [List.pairwise_map]
    have hsorted2 : idx2.Pairwise (fun a b => cmp (List.ofFn (fun i => S (σ i))) a b) :=
      List.sorted_mergeSort (cmp_trans _) (cmp_total _) (List.range l)
    refine List.Pairwise.imp_of_mem ?_ (hsorted2.and hnd2)
    intro a b ha hb hab
    obtain ⟨hle, hne⟩ := hab
    have ha' := hmem2 a ha
    have hb' := hmem2 b hb
    simp only [cmp, decide_eq_true_eq] at hle
    rw [getD_ofFn _ ha', getD_ofFn _ hb'] at hle
    rw [getD_ofFn S (permNat_lt σ ha'), getD_ofFn S (permNat_lt σ hb'),
      permNat_mk σ ha', permNat_mk σ hb']
    refine lt_of_le_of_ne hle ?_
    intro hval
    apply hne
    exact congrArg Fin.val (σ.injective (hinj hval))
  haveI : IsAntisymm ℕ (fun a b => (List.ofFn S).getD a 0 < (List.ofFn S).getD b 0) :=
    ⟨fun a b h1 h2 => absurd h1 (not_lt.mpr (le_of_lt h2))⟩
  have hIdxEq : idx1 = idx2.map (permNat σ) :=
    List.eq_of_perm_of_sorted (hperm1.trans hMperm.symm) hpair1 hpairM
  have hmap : ∀ (f : Fin l → ℚ),
      idx2.map (fun j => (List.ofFn (fun i => f (σ i))).getD j 0)
        = idx1.map (fun j => (List.ofFn f).getD j 0) := by
    intro f
    rw [hIdxEq, List.map_map]
    apply List.map_congr_left
    intro j hj
    have hj' := hmem2 j hj
    simp only [Function.comp]
    rw [getD_ofFn _ hj', getD_ofFn f (permNat_lt σ hj'), permNat_mk σ hj']
  rw [hmap R, hmap K, hmap S]
  set D := diffsLoop p base
    (idx1.map (fun j => (List.ofFn R).getD j 0))
    (idx1.map (fun j => (List.ofFn K).getD j 0))
    (idx1.map (fun j => (List.ofFn S).getD j 0)) with hD
  apply List.ext_getElem
  · rw [scatter_length, List.length_ofFn, List.length_ofFn]
  intro j h1 h2
  have hj : j < l := by
    rw [scatter_length, List.length_ofFn] at h1
    exact h1
  rw [List.getElem_ofFn]
  rw [← List.getD_eq_getElem _ 0 h1]
  have hjmem : j ∈ idx2 := hperm2.mem_iff.mpr (List.mem_range.mpr hj)
  obtain ⟨m, hm, hgetE⟩ := List.mem_iff_getElem.mp hjmem
  have hget : idx2.get ⟨m, hm⟩ = j := hgetE
  have hq2 := scatter_getD D idx2 (List.ofFn (fun i => R (σ i))) 0 hnd2 m hm
    (by rw [hget, List.length_ofFn]; exact hj)
  rw [hget] at hq2
  have hm1 : m < idx1.length := by
    rw [hIdxEq, List.length_map]
    exact hm
  have hget1 : idx1.get ⟨m, hm1⟩ = permNat σ j := by
    have e1 := List.getElem_of_eq hIdxEq hm1
    rw [List.get_eq_getElem, e1, List.getElem_map, hgetE]
  have hq1 := scatter_getD D idx1 (List.ofFn R) 0 hnd1 m hm1
    (by rw [hget1, List.length_ofFn]; exact permNat_lt σ hj)
  rw [hget1] at hq1
  rw [hq2]
  have hval : ((σ ⟨j, by simpa using h2⟩ : Fin l) : ℕ) = permNat σ j := by
    simp [permNat, hj]
  rw [hval, hq1]
  congr 1
  rw [getD_ofFn _ hj, getD_ofFn R (permNat_lt σ hj), permNat_mk σ hj]

/-- C2 as stated is false on the code: with tied normalized scores the
stable sort breaks the tie by input position, so permuting the competitors
changes which neighbors get compared and the per-competitor deltas differ.
Here the original input is ratings `[1, 2, 3]`, K `[20, 20, 20]`, scores
`[1/2, 1/2, 1]` and the permutation swaps the first two competitors. -/
theorem calculate_perm_counterexample :
    Elo.Calculate pow10int ⟨1⟩ [2, 1, 3] [20, 20, 20] [1/2, 1/2, 1]
      ≠ (Elo.Calculate pow10int ⟨1⟩ [1, 2, 3] [20, 20, 20] [1/2, 1/2, 1]).map
          (fun out => [out.getD 1 0, out.getD 0 0, out.getD 2 0]) := by
  have h1 : Elo.Calculate pow10int ⟨1⟩ [1, 2, 3] [20, 20, 20] [1/2, 1/2, 1]
      = .ok [101/11, 2, 53/11] := by
    norm_num [Elo.Calculate, calcCore, cmp, diffsLoop, diffStep, scatter, pow10int,
      List.range_succ, List.mergeSort, List.merge, List.splitInTwo]
  have h2 : Elo.Calculate pow10int ⟨1⟩ [2, 1, 3] [20, 20, 20] [1/2, 1/2, 1]
      = .ok [-68/11, 21091/1111, 323/101] := by
    norm_num [Elo.Calculate, calcCore, cmp, diffsLoop, diffStep, scatter, pow10int,
      List.range_succ, List.mergeSort, List.merge, List.splitInTwo]
  rw [h1, h2]
  simp only [Except.map, ne_eq, Except.ok.injEq]
  intro h
  rw [List.cons_eq_cons] at h
  have := h.1
  norm_num at this

/-- C2 amended: when the normalized scores are pairwise distinct (so the
stable sort has no ties to break by input position), `Calculate` applied to
a permutation of the competitors returns exactly the same permutation of the
original result: every competitor receives the same new rating no matter
where it is listed. -/
theorem calculate_perm_equivariant (p : ℚ → ℚ) (e : Elo) {l : ℕ}
    (R K S : Fin l → ℚ) (σ : Equiv.Perm (Fin l)) (hinj : Function.Injective S) :
    Elo.Calculate p e (List.ofFn (fun i => R (σ i))) (List.ofFn (fun i => K (σ i)))
        (List.ofFn (fun i => S (σ i)))
      = (Elo.Calculate p e (List.ofFn R) (List.ofFn K) (List.ofFn S)).map
          (fun out => List.ofFn (fun i => out.getD (σ i) 0)) := by
  rcases Nat.lt_or_ge l 2 with hl2 | hl2
  · have hshort : ∀ (f g h : Fin l → ℚ),
        Elo.Calculate p e (List.ofFn f) (List.ofFn g) (List.ofFn h) = .ok (List.ofFn f) :=
      fun f g h => calculate_short_circuit p e _ _ _ (by simp) (by simp)
        (by simp only [List.length_ofFn]; omega)
    rw [hshort, hshort]
    simp only [Except.map]
    exact congrArg Except.ok
      (congrArg List.ofFn (funext fun i => (getD_ofFn R (σ i).isLt).symm))
  · have hmain : ∀ (f g h : Fin l → ℚ),
        Elo.Calculate p e (List.ofFn f) (List.ofFn g) (List.ofFn h)
          = .ok (calcCore p e.Base (List.ofFn f) (List.ofFn g) (List.ofFn h)) := by
      intro f g h
      unfold Elo.Calculate
      rw [if_neg (by simp), if_neg (by simp only [List.length_ofFn]; omega),
        if_neg (by simp only [List.length_ofFn]; omega)]
    rw [hmain, hmain]
    simp only [Except.map]
    exact congrArg Except.ok (calcCore_perm p e.Base R K S σ hinj)

/-- Witness for C2 (amended): swapping the two competitors of a decisive
head-to-head permutes the result. -/
theorem calculate_perm_equivariant_witness :
    Elo.Calculate pow10int ⟨1⟩
        (List.ofFn (fun i : Fin 2 => ((Equiv.swap (0 : Fin 2) 1 i).val : ℚ) + 1))
        (List.ofFn (fun _ : Fin 2 => (20 : ℚ)))
        (List.ofFn (fun i : Fin 2 => ((Equiv.swap (0 : Fin 2) 1 i).val : ℚ)))
      = (Elo.Calculate pow10int ⟨1⟩
          (List.ofFn (fun i : Fin 2 => ((i : Fin 2).val : ℚ) + 1))
          (List.ofFn (fun _ : Fin 2 => (20 : ℚ)))
          (List.ofFn (fun i : Fin 2 => ((i : Fin 2).val : ℚ)))).map
          (fun out => List.ofFn (fun i : Fin 2 => out.getD (Equiv.swap (0 : Fin 2) 1 i) 0)) :=
  calculate_perm_equivariant pow10int ⟨1⟩ (fun i => (i.val : ℚ) + 1) (fun _ => (20 : ℚ))
    (fun i => (i.val : ℚ)) (Equiv.swap 0 1)
    (fun a b hab => Fin.ext (Nat.cast_inj.mp hab))

end elo
